import Mathlib

set_option maxRecDepth 100000

/-!
Verification of the Nexus_AI real-time audio bridge against its design
specification.

The development shallowly embeds the relevant parts of the source:

* `src/core/audio/ogg_parser.py` — the stateful Ogg container
  demultiplexer `OggPageParser.process` (bytes are modelled as `Nat`
  values `< 256`, the mutable `bytearray` buffers as `List Nat`).
* `src/core/audio/streamer.py` — the `AudioBridge` connection routine
  `connect_model`, the supervisor `process_stream`, the sidecar-output
  loop `handle_model_to_client`, and `stop`, modelled as pure functions
  over explicit environments (one environment entry per awaited I/O
  event), since the Python code only touches its own state between
  awaits.
-/

namespace NexusAI

/-! ### Ogg demultiplexer (ogg_parser.py) -/

/-- The 4-byte capture pattern `b'OggS'` as byte values. -/
def oggSmagic : List Nat := [79, 103, 103, 83]

/-- Instance state of `OggPageParser` (`__init__`, lines 7-10).
`pending_packet` embeds the source field `partial_packet` (renamed),
`buffer` and `packets_sent` keep their source names. -/
structure ParserState where
  buffer : List Nat
  pending_packet : List Nat
  packets_sent : Nat
deriving DecidableEq

/-- A freshly constructed `OggPageParser()`. -/
def freshParser : ParserState := ⟨[], [], 0⟩

/-- `self.buffer.index(b'O', 1)` — first index `≥ start` holding byte 79,
as an `Option` instead of `ValueError`. -/
def findOAux : List Nat → Nat → Option Nat
  | [], _ => none
  | b :: rest, i => if b = 79 then some i else findOAux rest (i + 1)

/-- `self.buffer.index(b'O', 1)`: search starts at offset 1. -/
def findO (l : List Nat) : Option Nat :=
  findOAux (l.drop 1) 1

/-- The `for length in segment_table` loop of `process` (lines 40-51):
accumulate body segments into the pending packet; a table entry `< 255`
terminates a packet; a non-empty completed packet is counted and, once
`packets_sent >= 2`, appended to the output.  Returns
`(packets-so-far, pending_packet, packets_sent)`. -/
def walkSegments : List Nat → List Nat → List Nat → Nat → List (List Nat) →
    List (List Nat) × List Nat × Nat
  | [], _, pp, sent, acc => (acc, pp, sent)
  | len :: rest, body, pp, sent, acc =>
    let pp2 := pp ++ body.take len
    let body2 := body.drop len
    if len < 255 then
      if pp2 = [] then
        walkSegments rest body2 pp2 sent acc
      else
        walkSegments rest body2 [] (sent + 1) (if 2 ≤ sent then acc ++ [pp2] else acc)
    else
      walkSegments rest body2 pp2 sent acc

/-- The `while len(self.buffer) >= 27` loop of `process` (lines 16-53).
The fuel argument dominates the iteration count: every iteration either
returns or strictly shrinks the buffer, so fuel `> buffer.length`
suffices.  Branches follow the source line by line:
* lines 17-25: capture-pattern check and resynchronization (`del
  self.buffer[:next_o]` / keep the last 3 bytes; the source guard
  `len(self.buffer) > 3` always holds here since the length is `≥ 27`);
* lines 27-37: header/size computation with early exit on short buffers;
* lines 39-53: segment walk and removal of the consumed page. -/
def processLoop : Nat → ParserState → List (List Nat) → List (List Nat) × ParserState
  | 0, s, acc => (acc, s)
  | fuel + 1, s, acc =>
    if 27 ≤ s.buffer.length then
      if s.buffer.take 4 = oggSmagic then
        let num_segments := s.buffer.getD 26 0
        let header_size := 27 + num_segments
        if s.buffer.length < header_size then
          (acc, s)
        else
          let segment_table := (s.buffer.drop 27).take num_segments
          let body_size := segment_table.sum
          let page_size := header_size + body_size
          if s.buffer.length < page_size then
            (acc, s)
          else
            let page_body := (s.buffer.drop header_size).take body_size
            let w := walkSegments segment_table page_body s.pending_packet s.packets_sent acc
            processLoop fuel ⟨s.buffer.drop page_size, w.2.1, w.2.2⟩ w.1
      else
        match findO s.buffer with
        | some i => processLoop fuel ⟨s.buffer.drop i, s.pending_packet, s.packets_sent⟩ acc
        | none => (acc, ⟨s.buffer.drop (s.buffer.length - 3), s.pending_packet, s.packets_sent⟩)
    else
      (acc, s)

/-- `OggPageParser.process(chunk)` (lines 12-55): extend the buffer and
run the page loop. -/
def OggPageParser.process (s : ParserState) (chunk : List Nat) :
    List (List Nat) × ParserState :=
  processLoop (s.buffer.length + chunk.length + 1) ⟨s.buffer ++ chunk, s.pending_packet, s.packets_sent⟩ []

/-- Repeated `process` calls on a chunk list; outputs concatenated in
call order. -/
def feedAll (s : ParserState) : List (List Nat) → List (List Nat) × ParserState
  | [] => ([], s)
  | c :: cs =>
    let r := OggPageParser.process s c
    let r2 := feedAll r.2 cs
    (r.1 ++ r2.1, r2.2)

/-! ### Ogg pages and streams (data model for the claims) -/

/-- One Ogg page of the data model: 22 header bytes after the capture
pattern (version, type, granule position, serial, sequence, CRC), the
segment table, and the body. -/
structure OggPage where
  hdr : List Nat
  tab : List Nat
  body : List Nat

/-- Well-formedness of a page per the container format: 22 fixed header
bytes after the capture pattern, one segment-count byte, body exactly as
long as the segment table sum, all values bytes. -/
def WFPage (p : OggPage) : Prop :=
  p.hdr.length = 22 ∧ p.body.length = p.tab.sum ∧ p.tab.length ≤ 255 ∧
    (∀ x ∈ p.hdr, x < 256) ∧ (∀ x ∈ p.tab, x < 256) ∧ (∀ x ∈ p.body, x < 256)

instance (p : OggPage) : Decidable (WFPage p) := by
  unfold WFPage; infer_instance

/-- Serialize one page: capture pattern, header bytes, segment count,
segment table, body. -/
def encodePage (p : OggPage) : List Nat :=
  oggSmagic ++ p.hdr ++ [p.tab.length] ++ p.tab ++ p.body

/-- Serialize a page sequence. -/
def encodeStream (ps : List OggPage) : List Nat :=
  (ps.map encodePage).flatten

/-- Logical packets of a lacing: split the body at every segment entry
`< 255` (arrival order, zero-length packets included).  Returns the
completed packets and the trailing unterminated run. -/
def lacedPackets : List Nat → List Nat → List Nat → List (List Nat) × List Nat
  | [], _, pp => ([], pp)
  | len :: rest, body, pp =>
    let pp2 := pp ++ body.take len
    if len < 255 then
      let r := lacedPackets rest (body.drop len) []
      (pp2 :: r.1, r.2)
    else
      lacedPackets rest (body.drop len) pp2

/-- The concatenated segment tables of a stream. -/
def streamTabs (ps : List OggPage) : List Nat :=
  (ps.map OggPage.tab).flatten

/-- The concatenated page bodies of a stream. -/
def streamBodies (ps : List OggPage) : List Nat :=
  (ps.map OggPage.body).flatten

/-- All logical packets of a stream in arrival order (zero-length ones
included). -/
def streamPackets (ps : List OggPage) : List (List Nat) :=
  (lacedPackets (streamTabs ps) (streamBodies ps) []).1

/-- The non-empty logical packets of a stream — the ones the parser
counts. -/
def nonemptyStreamPackets (ps : List OggPage) : List (List Nat) :=
  (streamPackets ps).filter (fun q => !q.isEmpty)

/-- Walking the segment tables of a page sequence in order, exactly as
consecutive complete pages are walked by the loop. -/
def walkPages : List OggPage → List Nat → Nat → List (List Nat) →
    List (List Nat) × List Nat × Nat
  | [], pp, sent, acc => (acc, pp, sent)
  | p :: ps, pp, sent, acc =>
    walkPages ps (walkSegments p.tab p.body pp sent acc).2.1
      (walkSegments p.tab p.body pp sent acc).2.2
      (walkSegments p.tab p.body pp sent acc).1

/-- Split the first `n` bytes of an encoded page sequence into the fully
covered pages, the leftover bytes of the next page, and the pages not
fully covered. -/
def splitPages : List OggPage → Nat → List OggPage × List Nat × List OggPage
  | [], _ => ([], [], [])
  | p :: ps, n =>
    if (encodePage p).length ≤ n then
      (p :: (splitPages ps (n - (encodePage p).length)).1,
        (splitPages ps (n - (encodePage p).length)).2.1,
        (splitPages ps (n - (encodePage p).length)).2.2)
    else
      ([], (encodePage p).take n, p :: ps)

/-- Buffers on which the loop can make no progress: empty, or a strict
front part of a single well-formed page. -/
def tlOK (tl : List Nat) : Prop :=
  tl = [] ∨ ∃ q k, WFPage q ∧ k < (encodePage q).length ∧ tl = (encodePage q).take k

/-! ### AudioBridge (streamer.py)

The bridge methods are `async` but touch only their own state between
`await` points; each is modelled as a pure function over an explicit
environment giving the outcome of every awaited operation. -/

/-- Outcome of one PersonaPlex connection attempt inside
`connect_model` (lines 136-188): the transport connect (under
`asyncio.wait_for`) may fail or time out, the JSON handshake send may
raise, or both succeed.  Every exception is caught by the
`except` handlers of the attempt. -/
inductive AttemptResult
  | connectFail
  | sendFail
  | sendOk
deriving DecidableEq

/-- Observable outcome of `connect_model` (lines 127-202): the returned
Bool, whether `self.model_ws` still holds a socket on return, how many
session-config JSON messages this client successfully sent over an
established transport, and how many handshake receive operations it
awaited before returning — the code performs none: after the send it
assumes success (lines 168-173). -/
structure ConnectOutcome where
  success : Bool
  ws_connected : Bool
  config_msgs_sent : Nat
  handshake_recv_waits : Nat
deriving DecidableEq

/-- The `for attempt in range(1, max_attempts + 1)` loop of
`connect_model`: the first attempt whose transport connect and
handshake send both succeed returns True with the socket kept; a failed
attempt is caught and the next attempt runs; exhausting the loop sets
`model_ws = None` and returns False (lines 190-196). -/
def connect_model_loop (env : Nat → AttemptResult) : Nat → Nat → ConnectOutcome
  | 0, _ => ⟨false, false, 0, 0⟩
  | remaining + 1, attempt =>
    match env attempt with
    | .sendOk => ⟨true, true, 1, 0⟩
    | _ => connect_model_loop env remaining (attempt + 1)

/-- `AudioBridge.connect_model()`: the attempt loop from attempt 1.  It
never raises: every exception inside an attempt is caught (lines
175-184), and the enclosing handler (lines 198-202) also returns
False. -/
def connect_model (env : Nat → AttemptResult) (max_attempts : Nat) : ConnectOutcome :=
  connect_model_loop env max_attempts 1

/-- What one handled sidecar payload produces in the body of
`handle_model_to_client` (lines 447-476). -/
structure StepOut where
  sent_to_client : Option (List Nat)
  barge_ins : Nat
  ai_audio_logs : Nat
deriving DecidableEq

/-- The receive-body of `handle_model_to_client` (lines 447-476): an
empty payload is skipped (line 447); with `is_client_speaking` set the
payload is dropped and one barge-in event is logged if a recorder is
attached (lines 451-455); otherwise the payload is transcoded and, when
the transcoding result is non-empty, sent to the client, with one
AI-audio event logged if a recorder is attached (lines 459-474). -/
def handle_model_msg (is_client_speaking has_recorder : Bool)
    (transcode : List Nat → List Nat) (pcm : List Nat) : StepOut :=
  if pcm = [] then ⟨none, 0, 0⟩
  else if is_client_speaking then ⟨none, if has_recorder then 1 else 0, 0⟩
  else
    let client_data := transcode pcm
    if client_data = [] then ⟨none, 0, 0⟩
    else ⟨some client_data, 0, if has_recorder then 1 else 0⟩

/-- One iteration of the `while self.is_running` loop of
`handle_model_to_client` (lines 434-488): `model_ws` may be None
(sleep-and-continue, lines 435-438), the 1-second receive may time out
(continue, lines 478-480), or a payload arrives while
`is_client_speaking` has the given value. -/
inductive LoopEvent
  | noWs
  | recvTimeout
  | recvMsg (speaking : Bool) (pcm : List Nat)
deriving DecidableEq

/-- What a run of the `handle_model_to_client` loop produces: the
payloads sent to the client transport in order, and the recorder event
counts. -/
structure RunOut where
  sent : List (List Nat)
  barge_ins : Nat
  ai_audio_logs : Nat
deriving DecidableEq

/-- The `handle_model_to_client` loop over a finite schedule of
iteration events. -/
def handle_model_to_client (has_recorder : Bool) (transcode : List Nat → List Nat) :
    List LoopEvent → RunOut
  | [] => ⟨[], 0, 0⟩
  | e :: es =>
    let rest := handle_model_to_client has_recorder transcode es
    match e with
    | .noWs => rest
    | .recvTimeout => rest
    | .recvMsg speaking pcm =>
      let o := handle_model_msg speaking has_recorder transcode pcm
      ⟨match o.sent_to_client with
        | some d => d :: rest.sent
        | none => rest.sent,
       o.barge_ins + rest.barge_ins, o.ai_audio_logs + rest.ai_audio_logs⟩

/-- Loop events that are non-empty received payloads — the ones dropped
with a barge-in record when the client is speaking. -/
def isDroppedAudio : LoopEvent → Bool
  | LoopEvent.recvMsg _ pcm => !pcm.isEmpty
  | _ => false

/-- Observable trace of `process_stream` (lines 493-561): it awaits
`connect_model` (result unused), sets `is_running`, starts exactly the
two streaming tasks (lines 511-519), waits for the first to finish,
cancels-and-awaits the rest, and in the `finally` block clears
`is_running` and disconnects the model socket.  The
`except ConnectionError` branch (lines 540-551) that would send the
structured `personaplex_unavailable` error event and re-raise is
unreachable because `connect_model` returns False instead of raising,
so no error event is emitted and the client transport is never closed
by the bridge here. -/
structure StreamTrace where
  connect_success : Bool
  tasks_started : Nat
  error_events_to_client : Nat
  client_closed_by_bridge : Bool
  final_running : Bool
  model_ws_open_at_end : Bool
deriving DecidableEq

def process_stream (env : Nat → AttemptResult) (max_attempts : Nat) : StreamTrace :=
  { connect_success := (connect_model env max_attempts).success
    tasks_started := 2
    error_events_to_client := 0
    client_closed_by_bridge := false
    final_running := false
    model_ws_open_at_end := false }

/-- Phase of one of the bridge's asyncio tasks. -/
inductive TaskPhase
  | running
  | completed
  | cancelled
deriving DecidableEq

/-- The resources `process_stream`/`stop` tear down: the `is_running`
flag, the task list, and the model socket.  The bridge holds no
persistent transcoding process: per-chunk ffmpeg subprocesses are
awaited to completion inside the transcode calls themselves. -/
structure BridgeRes where
  is_running : Bool
  tasks : List TaskPhase
  model_ws_open : Bool
deriving DecidableEq

/-- `disconnect_model` (lines 204-214): close and clear the socket if
one is held, otherwise do nothing. -/
def disconnect_model (b : BridgeRes) : BridgeRes :=
  if b.model_ws_open then ⟨b.is_running, b.tasks, false⟩ else b

/-- `task.cancel()` followed by awaiting the task (absorbing
`CancelledError`): a running task ends cancelled; finished tasks are
unchanged. -/
def cancel_and_await : TaskPhase → TaskPhase
  | .running => .cancelled
  | t => t

/-- The supervisor tail of `process_stream` (lines 522-561) after
`asyncio.wait(..., FIRST_COMPLETED)` returned with task `i` done:
`is_running` cleared, the pending task cancelled and awaited, then the
`finally` block disconnects the model socket. -/
def supervisor_teardown (i : Fin 2) (ws_open : Bool) : BridgeRes :=
  disconnect_model
    ⟨false,
      ([if i = (0 : Fin 2) then TaskPhase.completed else TaskPhase.running,
        if i = (1 : Fin 2) then TaskPhase.completed else TaskPhase.running]).map
        cancel_and_await,
      ws_open⟩

/-- `AudioBridge.stop()` (lines 563-580): clear `is_running`, cancel
every not-done task, await them all (`asyncio.gather` with exceptions
absorbed), then disconnect the model socket. -/
def stop (b : BridgeRes) : BridgeRes :=
  disconnect_model ⟨false, b.tasks.map cancel_and_await, b.model_ws_open⟩

/-! ### Structure of an encoded page -/

lemma encodePage_eq (p : OggPage) :
    encodePage p = (oggSmagic ++ p.hdr ++ [p.tab.length]) ++ (p.tab ++ p.body) := by
  simp [encodePage, List.append_assoc]

lemma length_encodePage (p : OggPage) (h22 : p.hdr.length = 22) :
    (encodePage p).length = 27 + (p.tab.length + p.body.length) := by
  simp [encodePage, oggSmagic, h22]; omega

lemma take4_encodePage_append (p : OggPage) (rest : List Nat) :
    ((encodePage p ++ rest)).take 4 = oggSmagic := by
  rw [encodePage_eq, List.append_assoc, List.append_assoc, List.append_assoc,
    List.take_append_eq_append_take]
  simp [oggSmagic]

lemma getD26_encodePage_append (p : OggPage) (rest : List Nat) (h22 : p.hdr.length = 22) :
    (encodePage p ++ rest).getD 26 0 = p.tab.length := by
  have h26 : (oggSmagic ++ p.hdr).length = 26 := by simp [oggSmagic, h22]
  rw [encodePage_eq]
  rw [List.getD_eq_getElem?_getD, List.append_assoc, List.append_assoc,
    List.getElem?_append_right (by omega)]
  simp [h26]

lemma drop27_encodePage_append (p : OggPage) (rest : List Nat) (h22 : p.hdr.length = 22) :
    (encodePage p ++ rest).drop 27 = p.tab ++ (p.body ++ rest) := by
  have h27 : (oggSmagic ++ p.hdr ++ [p.tab.length]).length = 27 := by simp [oggSmagic, h22]
  rw [encodePage_eq, List.append_assoc, List.drop_left' h27, List.append_assoc]

/-! ### Stall lemmas: the loop leaves incomplete data untouched -/

/-- Fewer than 27 buffered bytes: the loop body does nothing. -/
lemma processLoop_stall_small (f : Nat) (s : ParserState) (acc : List (List Nat))
    (h : s.buffer.length < 27) :
    processLoop f s acc = (acc, s) := by
  cases f with
  | zero => rfl
  | succ f => simp only [processLoop, if_neg (by omega : ¬ 27 ≤ s.buffer.length)]

/-- A strict front part of a single well-formed page stalls the loop:
the partial page stays buffered, nothing is emitted. -/
lemma processLoop_stall_take (p : OggPage) (hw : WFPage p) (k : Nat)
    (hk : k < (encodePage p).length) (f : Nat) (pp : List Nat) (sent : Nat)
    (acc : List (List Nat)) :
    processLoop f ⟨(encodePage p).take k, pp, sent⟩ acc =
      (acc, ⟨(encodePage p).take k, pp, sent⟩) := by
  obtain ⟨h22, hb, -⟩ := hw
  have hlen : ((encodePage p).take k).length = k := by
    simp [List.length_take]; omega
  cases f with
  | zero => rfl
  | succ f =>
    by_cases h27 : 27 ≤ k
    · -- the capture pattern and header fields of the full page are visible
      have htk4 : ((encodePage p).take k).take 4 = oggSmagic := by
        rw [List.take_take, show min 4 k = 4 by omega,
          show encodePage p = encodePage p ++ [] by simp, take4_encodePage_append]
      have hg26 : ((encodePage p).take k).getD 26 0 = p.tab.length := by
        rw [List.getD_eq_getElem?_getD, List.getElem?_take, if_pos (by omega),
          ← List.getD_eq_getElem?_getD,
          show encodePage p = encodePage p ++ [] by simp, getD26_encodePage_append _ _ h22]
      simp only [processLoop, hlen, if_pos h27, htk4, if_pos rfl, hg26]
      by_cases hhd : k < 27 + p.tab.length
      · rw [if_pos hhd]
        exact if_pos trivial
      · rw [if_neg hhd]
        have hseg : (((encodePage p).take k).drop 27).take p.tab.length = p.tab := by
          rw [List.drop_take, show encodePage p = encodePage p ++ [] by simp,
            drop27_encodePage_append _ _ h22, List.take_take,
            show min p.tab.length (k - 27) = p.tab.length by omega,
            List.take_left' rfl]
        rw [hseg]
        have hpage : k < 27 + p.tab.length + p.tab.sum := by
          have := length_encodePage p h22; omega
        rw [if_pos hpage]
        exact if_pos trivial
    · exact processLoop_stall_small _ _ _
        (by show (List.take k (encodePage p)).length < 27; omega)

/-! ### Consuming one complete page -/

/-- A complete well-formed page at the front of the buffer is consumed
in one loop iteration; its segment table is walked and the page bytes
removed. -/
lemma processLoop_page (p : OggPage) (hw : WFPage p) (rest : List Nat) (pp : List Nat)
    (sent : Nat) (acc : List (List Nat)) (fuel : Nat) :
    processLoop (fuel + 1) ⟨encodePage p ++ rest, pp, sent⟩ acc =
      processLoop fuel ⟨rest, (walkSegments p.tab p.body pp sent acc).2.1,
        (walkSegments p.tab p.body pp sent acc).2.2⟩
        (walkSegments p.tab p.body pp sent acc).1 := by
  obtain ⟨h22, hb, -⟩ := hw
  have hlen : (encodePage p ++ rest).length =
      27 + (p.tab.length + p.body.length) + rest.length := by
    simp [List.length_append, length_encodePage p h22]
  simp only [processLoop, hlen, if_pos (by omega : 27 ≤ 27 + (p.tab.length + p.body.length) + rest.length),
    take4_encodePage_append, if_pos rfl, getD26_encodePage_append _ _ h22]
  rw [if_neg (by omega : ¬ 27 + (p.tab.length + p.body.length) + rest.length < 27 + p.tab.length)]
  have hseg : ((encodePage p ++ rest).drop 27).take p.tab.length = p.tab := by
    rw [drop27_encodePage_append _ _ h22, List.take_left' rfl]
  rw [hseg]
  rw [if_neg (by omega : ¬ 27 + (p.tab.length + p.body.length) + rest.length <
    27 + p.tab.length + p.tab.sum)]
  have hbody : ((encodePage p ++ rest).drop (27 + p.tab.length)).take p.tab.sum = p.body := by
    rw [← List.drop_drop, drop27_encodePage_append _ _ h22, List.drop_left' rfl, ← hb,
      List.take_left' rfl]
  have hdropall : (encodePage p ++ rest).drop (27 + p.tab.length + p.tab.sum) = rest := by
    rw [← List.drop_drop, ← List.drop_drop, drop27_encodePage_append _ _ h22,
      List.drop_left' rfl, List.drop_left' hb]
  rw [hbody, hdropall]
  exact if_pos trivial

/-! ### The segment walk: accumulator, splitting, characterization -/

lemma walkSegments_acc (t : List Nat) : ∀ (b pp : List Nat) (sent : Nat) (acc : List (List Nat)),
    walkSegments t b pp sent acc =
      (acc ++ (walkSegments t b pp sent []).1, (walkSegments t b pp sent []).2) := by
  induction t with
  | nil => intro b pp sent acc; simp [walkSegments]
  | cons len rest ih =>
    intro b pp sent acc
    simp only [walkSegments]
    by_cases h255 : len < 255
    · by_cases hpp : pp ++ b.take len = []
      · simp only [if_pos h255, if_pos hpp]
        exact ih _ _ _ _
      · simp only [if_pos h255, if_neg hpp]
        rw [ih _ _ _ (if 2 ≤ sent then acc ++ [pp ++ b.take len] else acc),
          ih _ _ _ (if 2 ≤ sent then [] ++ [pp ++ b.take len] else [])]
        by_cases hs : 2 ≤ sent
        · simp [if_pos hs, List.append_assoc]
        · simp [if_neg hs]
    · simp only [if_neg h255]
      exact ih _ _ _ _

lemma walkSegments_append (t1 : List Nat) : ∀ (t2 b1 b2 pp : List Nat) (sent : Nat)
    (acc : List (List Nat)), b1.length = t1.sum →
    walkSegments (t1 ++ t2) (b1 ++ b2) pp sent acc =
      walkSegments t2 b2 (walkSegments t1 b1 pp sent acc).2.1
        (walkSegments t1 b1 pp sent acc).2.2 (walkSegments t1 b1 pp sent acc).1 := by
  induction t1 with
  | nil =>
    intro t2 b1 b2 pp sent acc hb
    have : b1 = [] := List.eq_nil_of_length_eq_zero (by simpa using hb)
    subst this; simp [walkSegments]
  | cons len rest ih =>
    intro t2 b1 b2 pp sent acc hb
    have hlen : len ≤ b1.length := by simp [List.sum_cons] at hb; omega
    have htake : (b1 ++ b2).take len = b1.take len := by
      rw [List.take_append_eq_append_take, show len - b1.length = 0 by omega]
      simp
    have hdrop : (b1 ++ b2).drop len = b1.drop len ++ b2 := by
      rw [List.drop_append_eq_append_drop, show len - b1.length = 0 by omega]
      simp
    have hlen' : (b1.drop len).length = rest.sum := by
      simp [List.length_drop]; simp [List.sum_cons] at hb; omega
    simp only [List.cons_append, walkSegments, htake, hdrop]
    by_cases h255 : len < 255
    · by_cases hpp : pp ++ b1.take len = []
      · simp only [if_pos h255, if_pos hpp]; exact ih _ _ _ _ _ _ hlen'
      · simp only [if_pos h255, if_neg hpp]; exact ih _ _ _ _ _ _ hlen'
    · simp only [if_neg h255]; exact ih _ _ _ _ _ _ hlen'

/-- Characterization of the segment walk: the completed non-empty
packets are counted, and of those the ones with index `≥ 2 - sent` are
emitted; the pending packet becomes the trailing unterminated run. -/
lemma walkSegments_spec (t : List Nat) : ∀ (b pp : List Nat) (sent : Nat) (acc : List (List Nat)),
    walkSegments t b pp sent acc =
      (acc ++ ((lacedPackets t b pp).1.filter (fun q => !q.isEmpty)).drop (2 - sent),
       (lacedPackets t b pp).2,
       sent + ((lacedPackets t b pp).1.filter (fun q => !q.isEmpty)).length) := by
  induction t with
  | nil => intro b pp sent acc; simp [walkSegments, lacedPackets]
  | cons len rest ih =>
    intro b pp sent acc
    simp only [walkSegments, lacedPackets]
    by_cases h255 : len < 255
    · by_cases hpp : pp ++ b.take len = []
      · simp only [if_pos h255, if_pos hpp, hpp]
        rw [ih _ _ _ _]
        simp [List.filter_cons, hpp]
      · simp only [if_pos h255, if_neg hpp]
        rw [ih _ _ _ _]
        have hfil : ((pp ++ b.take len) :: (lacedPackets rest (b.drop len) []).1).filter
            (fun q => !q.isEmpty) =
            (pp ++ b.take len) :: ((lacedPackets rest (b.drop len) []).1.filter
              (fun q => !q.isEmpty)) := by
          simp [List.filter_cons, List.isEmpty_iff, hpp]
        rw [hfil]
        by_cases hs : 2 ≤ sent
        · rw [if_pos hs, show 2 - sent = 0 by omega, show 2 - (sent + 1) = 0 by omega]
          simp only [List.drop_zero, List.length_cons, Prod.mk.injEq, List.append_assoc,
            List.singleton_append]
          refine ⟨?_, ?_, ?_⟩ <;> first | trivial | omega
        · rw [if_neg hs, show 2 - sent = (2 - (sent + 1)) + 1 by omega,
            List.drop_succ_cons]
          simp only [List.length_cons, Prod.mk.injEq]
          refine ⟨?_, ?_, ?_⟩ <;> first | trivial | omega
    · simp only [if_neg h255]
      exact ih _ _ _ _

/-! ### Page sequences -/

lemma walkPages_acc (ps : List OggPage) : ∀ (pp : List Nat) (sent : Nat)
    (acc : List (List Nat)),
    walkPages ps pp sent acc =
      (acc ++ (walkPages ps pp sent []).1, (walkPages ps pp sent []).2) := by
  induction ps with
  | nil => intro pp sent acc; simp [walkPages]
  | cons p ps ih =>
    intro pp sent acc
    simp only [walkPages]
    rw [walkSegments_acc p.tab p.body pp sent acc]
    dsimp only
    rw [ih _ _ (acc ++ (walkSegments p.tab p.body pp sent []).1),
      ih _ _ (walkSegments p.tab p.body pp sent []).1]
    simp [List.append_assoc]

lemma walkPages_append (ps1 : List OggPage) : ∀ (ps2 : List OggPage) (pp : List Nat)
    (sent : Nat) (acc : List (List Nat)),
    walkPages (ps1 ++ ps2) pp sent acc =
      walkPages ps2 (walkPages ps1 pp sent acc).2.1 (walkPages ps1 pp sent acc).2.2
        (walkPages ps1 pp sent acc).1 := by
  induction ps1 with
  | nil => intro ps2 pp sent acc; simp [walkPages]
  | cons p ps ih =>
    intro ps2 pp sent acc
    simp only [List.cons_append, walkPages]
    exact ih _ _ _ _

/-- Walking consecutive pages equals walking the concatenated lacing
(segment tables and bodies joined across pages). -/
lemma walkPages_eq_walkSegments (ps : List OggPage) : ∀ (pp : List Nat) (sent : Nat)
    (acc : List (List Nat)), (∀ p ∈ ps, WFPage p) →
    walkPages ps pp sent acc = walkSegments (streamTabs ps) (streamBodies ps) pp sent acc := by
  induction ps with
  | nil => intro pp sent acc _; simp [walkPages, streamTabs, streamBodies, walkSegments]
  | cons p ps ih =>
    intro pp sent acc hwf
    have hb : p.body.length = p.tab.sum := (hwf p (by simp)).2.1
    have htabs : streamTabs (p :: ps) = p.tab ++ streamTabs ps := by
      simp [streamTabs]
    have hbodies : streamBodies (p :: ps) = p.body ++ streamBodies ps := by
      simp [streamBodies]
    rw [htabs, hbodies, walkSegments_append _ _ _ _ _ _ _ hb]
    simp only [walkPages]
    exact ih _ _ _ (fun q hq => hwf q (by simp [hq]))

lemma encodeStream_nil : encodeStream [] = [] := by simp [encodeStream]

lemma encodeStream_cons (p : OggPage) (ps : List OggPage) :
    encodeStream (p :: ps) = encodePage p ++ encodeStream ps := by
  simp [encodeStream]

lemma encodeStream_append (ps1 ps2 : List OggPage) :
    encodeStream (ps1 ++ ps2) = encodeStream ps1 ++ encodeStream ps2 := by
  simp [encodeStream]

lemma encodePage_length_pos (p : OggPage) : 0 < (encodePage p).length := by
  simp [encodePage, oggSmagic]

lemma encodeStream_eq_nil (ps : List OggPage) (h : encodeStream ps = []) : ps = [] := by
  cases ps with
  | nil => rfl
  | cons p ps =>
    rw [encodeStream_cons, List.append_eq_nil] at h
    have hpos := encodePage_length_pos p
    rw [h.1] at hpos
    simp at hpos

/-- A sequence of complete well-formed pages followed by a stallable
tail is consumed page by page: the walk over the pages runs, the tail
stays buffered. -/
lemma processLoop_stream (ps : List OggPage) : ∀ (tl pp : List Nat) (sent : Nat)
    (acc : List (List Nat)) (f : Nat), (∀ p ∈ ps, WFPage p) → tlOK tl →
    (encodeStream ps ++ tl).length < f →
    processLoop f ⟨encodeStream ps ++ tl, pp, sent⟩ acc =
      ((walkPages ps pp sent acc).1,
        ⟨tl, (walkPages ps pp sent acc).2.1, (walkPages ps pp sent acc).2.2⟩) := by
  induction ps with
  | nil =>
    intro tl pp sent acc f _ htl hf
    rw [encodeStream_nil, List.nil_append]
    simp only [walkPages]
    rcases htl with h | ⟨q, k, hq, hk, htl⟩
    · subst h; exact processLoop_stall_small _ _ _ (by simp)
    · subst htl; exact processLoop_stall_take q hq k hk _ _ _ _
  | cons p ps ih =>
    intro tl pp sent acc f hwf htl hf
    have hwp : WFPage p := hwf p (by simp)
    have h2 : (encodeStream (p :: ps) ++ tl).length =
        (encodePage p).length + (encodeStream ps ++ tl).length := by
      rw [encodeStream_cons, List.append_assoc, List.length_append]
    have h1 := encodePage_length_pos p
    rw [encodeStream_cons, List.append_assoc]
    cases f with
    | zero => omega
    | succ f =>
      rw [processLoop_page p hwp _ _ _ _ f]
      rw [ih _ _ _ _ f (fun q hq => hwf q (by simp [hq])) htl (by omega)]
      simp only [walkPages]

/-! ### A complete page is never a strict front part of a page -/

lemma encodePage_ne_take (p q : OggPage) (hp : WFPage p) (hq : WFPage q) (S : List Nat)
    (k : Nat) (hk : k < (encodePage q).length) :
    encodePage p ++ S ≠ (encodePage q).take k := by
  intro h
  obtain ⟨hp22, hpb, -⟩ := hp
  obtain ⟨hq22, hqb, -⟩ := hq
  have hklen : (encodePage p).length + S.length = k := by
    have hl := congrArg List.length h
    simp only [List.length_append, List.length_take] at hl
    omega
  have hsplit : encodePage q = encodePage p ++ (S ++ (encodePage q).drop k) := by
    conv_lhs => rw [← List.take_append_drop k (encodePage q)]
    rw [← h, List.append_assoc]
  have h26p : (encodePage p ++ (S ++ (encodePage q).drop k)).getD 26 0 = p.tab.length :=
    getD26_encodePage_append _ _ hp22
  have h26q : (encodePage q).getD 26 0 = q.tab.length := by
    have h0 := getD26_encodePage_append q [] hq22
    simpa using h0
  have htablen : p.tab.length = q.tab.length := by
    rw [hsplit, h26p] at h26q
    exact h26q
  have hdq : (encodePage q).drop 27 = q.tab ++ (q.body ++ []) := by
    have h0 := drop27_encodePage_append q [] hq22
    simpa using h0
  have hdp : (encodePage q).drop 27 = p.tab ++ (p.body ++ (S ++ (encodePage q).drop k)) := by
    conv_lhs => rw [hsplit]
    exact drop27_encodePage_append p _ hp22
  have h1 : ((encodePage q).drop 27).take q.tab.length = p.tab := by
    rw [hdp, ← htablen, List.take_left' rfl]
  have h2 : ((encodePage q).drop 27).take q.tab.length = q.tab := by
    rw [hdq, List.take_left' rfl]
  have htab : p.tab = q.tab := h1.symm.trans h2
  have hlp := length_encodePage p hp22
  have hlq := length_encodePage q hq22
  have hsum : p.tab.sum = q.tab.sum := by rw [htab]
  have htl : p.tab.length = q.tab.length := htablen
  omega

/-! ### Splitting a stream at a byte count -/

lemma splitPages_parts (ps : List OggPage) : ∀ n : Nat,
    (splitPages ps n).1 ++ (splitPages ps n).2.2 = ps := by
  induction ps with
  | nil => intro n; simp [splitPages]
  | cons p ps ih =>
    intro n
    simp only [splitPages]
    by_cases h : (encodePage p).length ≤ n
    · simp only [if_pos h, List.cons_append, ih]
    · simp only [if_neg h, List.nil_append]

lemma splitPages_take (ps : List OggPage) : ∀ n : Nat,
    (encodeStream ps).take n =
      encodeStream (splitPages ps n).1 ++ (splitPages ps n).2.1 := by
  induction ps with
  | nil => intro n; simp [splitPages, encodeStream_nil]
  | cons p ps ih =>
    intro n
    simp only [splitPages, encodeStream_cons]
    by_cases h : (encodePage p).length ≤ n
    · rw [if_pos h]
      dsimp only
      rw [List.take_append_eq_append_take, List.take_of_length_le h,
        encodeStream_cons, List.append_assoc, ih]
    · rw [if_neg h]
      dsimp only
      rw [List.take_append_eq_append_take, show n - (encodePage p).length = 0 by omega]
      simp [encodeStream_nil]

lemma splitPages_tlOK (ps : List OggPage) : ∀ n : Nat, (∀ p ∈ ps, WFPage p) →
    tlOK (splitPages ps n).2.1 := by
  induction ps with
  | nil => intro n _; left; simp [splitPages]
  | cons p ps ih =>
    intro n hwf
    simp only [splitPages]
    by_cases h : (encodePage p).length ≤ n
    · rw [if_pos h]
      exact ih _ (fun q hq => hwf q (by simp [hq]))
    · rw [if_neg h]
      exact Or.inr ⟨p, n, hwf p (by simp), by omega, rfl⟩

/-! ### Arbitrary chunking of an encoded stream -/

/-- Feeding any chunk sequence whose concatenation is the byte stream of
a well-formed page sequence (starting from a stallable buffer that
completes it) walks exactly those pages and ends with an empty buffer. -/
lemma feedAll_stream (CS : List (List Nat)) : ∀ (ps : List OggPage) (buf pp : List Nat)
    (sent : Nat), (∀ p ∈ ps, WFPage p) → tlOK buf →
    buf ++ CS.flatten = encodeStream ps →
    feedAll ⟨buf, pp, sent⟩ CS =
      ((walkPages ps pp sent []).1,
        ⟨[], (walkPages ps pp sent []).2.1, (walkPages ps pp sent []).2.2⟩) := by
  induction CS with
  | nil =>
    intro ps buf pp sent hwf hbuf hjoin
    rw [List.flatten_nil, List.append_nil] at hjoin
    have hps : ps = [] ∧ buf = [] := by
      rcases hbuf with h | ⟨q, k, hq, hk, hbuf⟩
      · subst h
        exact ⟨encodeStream_eq_nil ps hjoin.symm, rfl⟩
      · cases ps with
        | nil =>
          rw [encodeStream_nil] at hjoin
          exact ⟨rfl, hjoin⟩
        | cons p ps =>
          exfalso
          rw [encodeStream_cons] at hjoin
          exact encodePage_ne_take p q (hwf p (by simp)) hq _ k hk (by rw [← hjoin, hbuf])
    rw [hps.1, hps.2]
    simp [feedAll, walkPages]
  | cons c cs ih =>
    intro ps buf pp sent hwf hbuf hjoin
    rw [List.flatten_cons] at hjoin
    have hjoin' : (buf ++ c) ++ cs.flatten = encodeStream ps := by
      rw [List.append_assoc]; exact hjoin
    have htake : buf ++ c = (encodeStream ps).take (buf.length + c.length) := by
      rw [← hjoin', List.take_append_eq_append_take,
        List.take_of_length_le (by simp [List.length_append]),
        show buf.length + c.length - (buf ++ c).length = 0 by simp [List.length_append]]
      simp
    have hsplit := splitPages_take ps (buf.length + c.length)
    rw [hsplit] at htake
    have hps := splitPages_parts ps (buf.length + c.length)
    have hmem1 : ∀ q ∈ (splitPages ps (buf.length + c.length)).1, WFPage q := by
      intro q hq
      exact hwf q (by rw [← hps]; exact List.mem_append_left _ hq)
    have hmem2 : ∀ q ∈ (splitPages ps (buf.length + c.length)).2.2, WFPage q := by
      intro q hq
      exact hwf q (by rw [← hps]; exact List.mem_append_right _ hq)
    have hstr : encodeStream ps =
        encodeStream (splitPages ps (buf.length + c.length)).1 ++
          encodeStream (splitPages ps (buf.length + c.length)).2.2 := by
      rw [← encodeStream_append, hps]
    have hrem : (splitPages ps (buf.length + c.length)).2.1 ++ cs.flatten =
        encodeStream (splitPages ps (buf.length + c.length)).2.2 := by
      have hcan : encodeStream (splitPages ps (buf.length + c.length)).1 ++
          ((splitPages ps (buf.length + c.length)).2.1 ++ cs.flatten) =
          encodeStream (splitPages ps (buf.length + c.length)).1 ++
            encodeStream (splitPages ps (buf.length + c.length)).2.2 := by
        rw [← List.append_assoc, ← htake, hjoin', hstr]
      exact List.append_cancel_left hcan
    have hproc : OggPageParser.process ⟨buf, pp, sent⟩ c =
        ((walkPages (splitPages ps (buf.length + c.length)).1 pp sent []).1,
          ⟨(splitPages ps (buf.length + c.length)).2.1,
            (walkPages (splitPages ps (buf.length + c.length)).1 pp sent []).2.1,
            (walkPages (splitPages ps (buf.length + c.length)).1 pp sent []).2.2⟩) := by
      show processLoop (buf.length + c.length + 1) ⟨buf ++ c, pp, sent⟩ [] = _
      rw [show (⟨buf ++ c, pp, sent⟩ : ParserState) =
        ⟨encodeStream (splitPages ps (buf.length + c.length)).1 ++
          (splitPages ps (buf.length + c.length)).2.1, pp, sent⟩ by rw [← htake]]
      apply processLoop_stream _ _ _ _ _ _ hmem1
        (splitPages_tlOK ps _ hwf)
      have hlen2 := congrArg List.length htake
      simp only [List.length_append] at hlen2 ⊢
      omega
    show (let r := OggPageParser.process ⟨buf, pp, sent⟩ c
      let r2 := feedAll r.2 cs
      (r.1 ++ r2.1, r2.2)) = _
    rw [hproc]
    dsimp only
    rw [ih _ _ _ _ hmem2 (splitPages_tlOK ps _ hwf) hrem]
    have hwp : walkPages ps pp sent [] =
        ((walkPages (splitPages ps (buf.length + c.length)).1 pp sent []).1 ++
          (walkPages (splitPages ps (buf.length + c.length)).2.2
            (walkPages (splitPages ps (buf.length + c.length)).1 pp sent []).2.1
            (walkPages (splitPages ps (buf.length + c.length)).1 pp sent []).2.2 []).1,
          (walkPages (splitPages ps (buf.length + c.length)).2.2
            (walkPages (splitPages ps (buf.length + c.length)).1 pp sent []).2.1
            (walkPages (splitPages ps (buf.length + c.length)).1 pp sent []).2.2 []).2) := by
      conv_lhs => rw [← hps]
      rw [walkPages_append]
      rw [walkPages_acc _ _ _ (walkPages (splitPages ps (buf.length + c.length)).1 pp sent []).1]
    rw [hwp]

/-! ### Resynchronization: the search for the next capture-pattern byte -/

lemma getD_drop_nat (l : List Nat) (n m : Nat) :
    (l.drop n).getD m 0 = l.getD (n + m) 0 := by
  rw [List.getD_eq_getElem?_getD, List.getD_eq_getElem?_getD, List.getElem?_drop]

lemma findOAux_spec (m : List Nat) : ∀ (s i : Nat), findOAux m s = some i →
    s ≤ i ∧ i - s < m.length ∧ m.getD (i - s) 0 = 79 ∧ ∀ t < i - s, m.getD t 0 ≠ 79 := by
  induction m with
  | nil => intro s i h; simp [findOAux] at h
  | cons b rest ih =>
    intro s i h
    simp only [findOAux] at h
    by_cases hb : b = 79
    · rw [if_pos hb] at h
      obtain rfl : s = i := by simpa using h
      refine ⟨le_refl s, by simp, by simpa, ?_⟩
      intro t ht; omega
    · rw [if_neg hb] at h
      obtain ⟨h1, h2, h3, h4⟩ := ih (s + 1) i h
      refine ⟨by omega, by simp; omega, ?_, ?_⟩
      · rw [show i - s = (i - (s + 1)) + 1 by omega, List.getD_cons_succ]
        exact h3
      · intro t ht
        cases t with
        | zero => simpa using hb
        | succ t =>
          rw [List.getD_cons_succ]
          exact h4 t (by omega)

lemma findOAux_exists (m : List Nat) : ∀ (s j : Nat), j < m.length → m.getD j 0 = 79 →
    ∃ i, findOAux m s = some i ∧ i ≤ s + j := by
  induction m with
  | nil => intro s j h; simp at h
  | cons b rest ih =>
    intro s j hj hget
    simp only [findOAux]
    by_cases hb : b = 79
    · exact ⟨s, by rw [if_pos hb], by omega⟩
    · cases j with
      | zero => simp at hget; exact absurd hget hb
      | succ j =>
        rw [List.getD_cons_succ] at hget
        obtain ⟨i, hi, hle⟩ := ih (s + 1) j (by simp at hj; omega) hget
        exact ⟨i, by rw [if_neg hb]; exact hi, by omega⟩

lemma findO_spec (l : List Nat) (i : Nat) (h : findO l = some i) :
    1 ≤ i ∧ i < l.length ∧ l.getD i 0 = 79 ∧ ∀ j, 1 ≤ j → j < i → l.getD j 0 ≠ 79 := by
  obtain ⟨h1, h2, h3, h4⟩ := findOAux_spec (l.drop 1) 1 i h
  rw [List.length_drop] at h2
  rw [getD_drop_nat, show 1 + (i - 1) = i by omega] at h3
  refine ⟨h1, by omega, h3, ?_⟩
  intro j hj1 hji
  have := h4 (j - 1) (by omega)
  rwa [getD_drop_nat, show 1 + (j - 1) = j by omega] at this

lemma findO_exists (l : List Nat) (j : Nat) (h1 : 1 ≤ j) (h2 : j < l.length)
    (h3 : l.getD j 0 = 79) : ∃ i, findO l = some i ∧ i ≤ j := by
  obtain ⟨i, hi, hle⟩ := findOAux_exists (l.drop 1) 1 (j - 1)
    (by rw [List.length_drop]; omega)
    (by rw [getD_drop_nat, show 1 + (j - 1) = j by omega]; exact h3)
  exact ⟨i, hi, by omega⟩

/-- One resynchronization step (lines 17-21 of the source): with a full
header's worth of bytes and no capture pattern up front, the buffer is
cut to the next byte 79 at offset `≥ 1` and the loop retries. -/
lemma processLoop_resync_step (s : ParserState) (acc : List (List Nat)) (f i : Nat)
    (h27 : 27 ≤ s.buffer.length) (hmag : s.buffer.take 4 ≠ oggSmagic)
    (hfind : findO s.buffer = some i) :
    processLoop (f + 1) s acc =
      processLoop f ⟨s.buffer.drop i, s.pending_packet, s.packets_sent⟩ acc := by
  simp only [processLoop, if_pos h27, if_neg hmag, hfind]

/-- The failed resynchronization step (lines 22-25): no byte 79 at
offset `≥ 1`, so all but the last 3 bytes are dropped and the call
stops. -/
lemma processLoop_resync_none (s : ParserState) (acc : List (List Nat)) (f : Nat)
    (h27 : 27 ≤ s.buffer.length) (hmag : s.buffer.take 4 ≠ oggSmagic)
    (hfind : findO s.buffer = none) :
    processLoop (f + 1) s acc =
      (acc, ⟨s.buffer.drop (s.buffer.length - 3), s.pending_packet, s.packets_sent⟩) := by
  simp only [processLoop, if_pos h27, if_neg hmag, hfind]

/-- Garbage before a page boundary is skipped: if no capture pattern
occurs inside the garbage region, the loop reaches the pages and
consumes them exactly as it would without the garbage. -/
lemma processLoop_resync_consume (n : Nat) : ∀ (g : List Nat), g.length ≤ n →
    ∀ (p0 : OggPage) (ps' : List OggPage) (tl pp : List Nat) (sent : Nat)
      (acc : List (List Nat)) (f : Nat),
    (∀ p ∈ p0 :: ps', WFPage p) → tlOK tl →
    (∀ i < g.length, ((g ++ (encodeStream (p0 :: ps') ++ tl)).drop i).take 4 ≠ oggSmagic) →
    (g ++ (encodeStream (p0 :: ps') ++ tl)).length < f →
    processLoop f ⟨g ++ (encodeStream (p0 :: ps') ++ tl), pp, sent⟩ acc =
      ((walkPages (p0 :: ps') pp sent acc).1,
        ⟨tl, (walkPages (p0 :: ps') pp sent acc).2.1,
          (walkPages (p0 :: ps') pp sent acc).2.2⟩) := by
  induction n with
  | zero =>
    intro g hg p0 ps' tl pp sent acc f hwf htl _ hf
    obtain rfl : g = [] := List.eq_nil_of_length_eq_zero (by omega)
    rw [List.nil_append] at hf ⊢
    exact processLoop_stream _ _ _ _ _ _ hwf htl hf
  | succ n ih =>
    intro g hg p0 ps' tl pp sent acc f hwf htl hg4 hf
    by_cases hgnil : g = []
    · subst hgnil
      rw [List.nil_append] at hf ⊢
      exact processLoop_stream _ _ _ _ _ _ hwf htl hf
    · have hglen : 1 ≤ g.length := by
        cases g with
        | nil => exact absurd rfl hgnil
        | cons a l => simp
      have hwp0 : WFPage p0 := hwf p0 (by simp)
      have hrest : encodeStream (p0 :: ps') ++ tl =
          encodePage p0 ++ (encodeStream ps' ++ tl) := by
        rw [encodeStream_cons, List.append_assoc]
      have hrlen : 27 ≤ (encodeStream (p0 :: ps') ++ tl).length := by
        rw [hrest, List.length_append, length_encodePage p0 hwp0.1]
        omega
      have hbuflen : (g ++ (encodeStream (p0 :: ps') ++ tl)).length =
          g.length + (encodeStream (p0 :: ps') ++ tl).length := by
        rw [List.length_append]
      have h27 : 27 ≤ (g ++ (encodeStream (p0 :: ps') ++ tl)).length := by omega
      have hmag : (g ++ (encodeStream (p0 :: ps') ++ tl)).take 4 ≠ oggSmagic := by
        have h0 := hg4 0 (by omega)
        simpa using h0
      have hR0 : (encodeStream (p0 :: ps') ++ tl).getD 0 0 = 79 := by
        rw [hrest]
        simp [encodePage, oggSmagic, List.cons_append, List.getD_cons_zero]
      have hO : (g ++ (encodeStream (p0 :: ps') ++ tl)).getD g.length 0 = 79 := by
        rw [List.getD_eq_getElem?_getD, List.getElem?_append_right (le_refl _),
          Nat.sub_self, ← List.getD_eq_getElem?_getD]
        exact hR0
      obtain ⟨i, hfind, hile⟩ := findO_exists _ g.length hglen (by omega) hO
      obtain ⟨hi1, -, -, -⟩ := findO_spec _ _ hfind
      cases f with
      | zero => omega
      | succ f =>
        rw [processLoop_resync_step ⟨g ++ (encodeStream (p0 :: ps') ++ tl), pp, sent⟩
          acc f i h27 hmag hfind]
        have hdropi : (g ++ (encodeStream (p0 :: ps') ++ tl)).drop i =
            g.drop i ++ (encodeStream (p0 :: ps') ++ tl) := by
          rw [List.drop_append_eq_append_drop, show i - g.length = 0 by omega,
            List.drop_zero]
        rw [hdropi]
        apply ih (g.drop i) (by rw [List.length_drop]; omega) p0 ps' tl pp sent acc f hwf htl
        · intro j hj
          rw [← hdropi, List.drop_drop]
          rw [List.length_drop] at hj
          exact hg4 (i + j) (by omega)
        · rw [List.length_append, List.length_drop]
          omega

/-! ### Only non-empty packets are ever emitted -/

lemma walkSegments_nonempty (t : List Nat) : ∀ (b pp : List Nat) (sent : Nat)
    (acc : List (List Nat)), (∀ q ∈ acc, q ≠ []) →
    ∀ q ∈ (walkSegments t b pp sent acc).1, q ≠ [] := by
  induction t with
  | nil => intro b pp sent acc hacc; exact hacc
  | cons len rest ih =>
    intro b pp sent acc hacc
    simp only [walkSegments]
    by_cases h255 : len < 255
    · by_cases hpp : pp ++ b.take len = []
      · rw [if_pos h255, if_pos hpp]
        exact ih _ _ _ _ hacc
      · rw [if_pos h255, if_neg hpp]
        apply ih
        intro q hq
        by_cases hs : 2 ≤ sent
        · rw [if_pos hs] at hq
          rcases List.mem_append.1 hq with h | h
          · exact hacc q h
          · simp at h; subst h; exact hpp
        · rw [if_neg hs] at hq
          exact hacc q hq
    · rw [if_neg h255]
      exact ih _ _ _ _ hacc

lemma processLoop_nonempty (f : Nat) : ∀ (s : ParserState) (acc : List (List Nat)),
    (∀ q ∈ acc, q ≠ []) → ∀ q ∈ (processLoop f s acc).1, q ≠ [] := by
  induction f with
  | zero => intro s acc hacc; exact hacc
  | succ f ihf =>
    intro s acc hacc q hq
    simp only [processLoop] at hq
    split at hq
    · split at hq
      · split at hq
        · exact hacc q hq
        · split at hq
          · exact hacc q hq
          · exact ihf _ _ (walkSegments_nonempty _ _ _ _ _ hacc) q hq
      · split at hq
        · exact ihf _ _ hacc q hq
        · exact hacc q hq
    · exact hacc q hq

lemma feedAll_nonempty (CS : List (List Nat)) : ∀ (s : ParserState),
    ∀ q ∈ (feedAll s CS).1, q ≠ [] := by
  induction CS with
  | nil => intro s q hq; simp [feedAll] at hq
  | cons c cs ih =>
    intro s q hq
    simp only [feedAll] at hq
    rcases List.mem_append.1 hq with h | h
    · exact processLoop_nonempty _ _ _ (by simp) q h
    · exact ih _ q h

/-! ### A run of 255-entries with one terminator makes one packet -/

lemma lacedPackets_run (k : Nat) : ∀ (b pp : List Nat) (term : Nat), term < 255 →
    b.length = (List.replicate k 255 ++ [term]).sum →
    lacedPackets (List.replicate k 255 ++ [term]) b pp = ([pp ++ b], []) := by
  induction k with
  | zero =>
    intro b pp term hterm hb
    simp [List.sum_append, List.sum_replicate] at hb
    simp only [List.replicate, List.nil_append, lacedPackets, if_pos hterm]
    rw [List.take_of_length_le (le_of_eq hb)]
  | succ k ihk =>
    intro b pp term hterm hb
    have hblen : b.length = 255 * (k + 1) + term := by
      simpa [List.sum_append, List.sum_replicate, smul_eq_mul, Nat.mul_comm] using hb
    rw [List.replicate_succ, List.cons_append]
    simp only [lacedPackets, if_neg (by omega : ¬ (255 : Nat) < 255)]
    rw [ihk (b.drop 255) (pp ++ b.take 255) term hterm
      (by simp [List.length_drop, List.sum_append, List.sum_replicate, smul_eq_mul,
        Nat.mul_comm]; omega)]
    rw [List.append_assoc, List.take_append_drop]

/-! ### The walk of a fresh parser over a whole stream -/

lemma walkPages_fresh (ps : List OggPage) (hwf : ∀ p ∈ ps, WFPage p) :
    walkPages ps [] 0 [] =
      ((nonemptyStreamPackets ps).drop 2,
        (lacedPackets (streamTabs ps) (streamBodies ps) []).2,
        (nonemptyStreamPackets ps).length) := by
  rw [walkPages_eq_walkSegments _ _ _ _ hwf, walkSegments_spec]
  simp [nonemptyStreamPackets, streamPackets]

/-! ### Claim theorems for the Ogg demultiplexer -/

/-- Claim C1 (amended): for every well-formed Ogg byte stream all of
whose logical packets are non-empty, containing at least 3 packets, and
for every chunking of its bytes, the concatenation of the packet lists
returned by `process` omits exactly the first two packets by arrival
order and contains every subsequent packet byte-for-byte unchanged; in
particular any chunking gives the same output as a single `process`
call on the whole stream (so feeding less than a page yields zero
packets and the rest later). -/
theorem ogg_header_suppression_chunking (ps : List OggPage) (CS : List (List Nat))
    (hwf : ∀ p ∈ ps, WFPage p) (hne : ∀ q ∈ streamPackets ps, q ≠ [])
    (h3 : 3 ≤ (streamPackets ps).length) (hcs : CS.flatten = encodeStream ps) :
    (feedAll freshParser CS).1 = (streamPackets ps).drop 2 ∧
      (OggPageParser.process freshParser (encodeStream ps)).1 =
        (streamPackets ps).drop 2 := by
  have hfil : nonemptyStreamPackets ps = streamPackets ps := by
    rw [nonemptyStreamPackets, List.filter_eq_self]
    intro a ha
    simpa [List.isEmpty_iff] using hne a ha
  have hfresh : freshParser = (⟨[], [], 0⟩ : ParserState) := rfl
  constructor
  · rw [hfresh, feedAll_stream CS ps [] [] 0 hwf (Or.inl rfl) (by simpa using hcs)]
    dsimp only
    rw [walkPages_fresh ps hwf]
    dsimp only
    rw [hfil]
  · have hone : (feedAll (⟨[], [], 0⟩ : ParserState) [encodeStream ps]).1 =
        (OggPageParser.process (⟨[], [], 0⟩ : ParserState) (encodeStream ps)).1 := by
      simp [feedAll]
    rw [hfresh, ← hone,
      feedAll_stream [encodeStream ps] ps [] [] 0 hwf (Or.inl rfl) (by simp)]
    dsimp only
    rw [walkPages_fresh ps hwf]
    dsimp only
    rw [hfil]

/-- Claim C1 counterexample: on the well-formed single-page stream with
segment table `[0,1,1,1]` and body `"abc"` the arrival-order packets
are `[[], [97], [98], [99]]` (4 ≥ 3 packets), so dropping exactly the
first two by arrival order would give `[[98],[99]]`; `process` on a
fresh parser returns `[[99]]` instead, because the empty packet is not
counted. -/
theorem ogg_header_suppression_cex :
    (∀ p ∈ [(⟨List.replicate 22 0, [0, 1, 1, 1], [97, 98, 99]⟩ : OggPage)], WFPage p) ∧
    streamPackets [(⟨List.replicate 22 0, [0, 1, 1, 1], [97, 98, 99]⟩ : OggPage)] =
      [[], [97], [98], [99]] ∧
    (OggPageParser.process freshParser
      (encodeStream [(⟨List.replicate 22 0, [0, 1, 1, 1], [97, 98, 99]⟩ : OggPage)])).1 =
      [[99]] ∧
    (OggPageParser.process freshParser
      (encodeStream [(⟨List.replicate 22 0, [0, 1, 1, 1], [97, 98, 99]⟩ : OggPage)])).1 ≠
      (streamPackets
        [(⟨List.replicate 22 0, [0, 1, 1, 1], [97, 98, 99]⟩ : OggPage)]).drop 2 := by
  refine ⟨by decide, by decide, by decide, by decide⟩

/-- Claim C1 witness: the amended claim applied to a concrete 3-packet
page fed in two chunks of 5 and 28 bytes. -/
theorem ogg_header_suppression_chunking_witness :
    (feedAll freshParser
      [(encodePage ⟨List.replicate 22 0, [1, 1, 1], [10, 20, 30]⟩).take 5,
       (encodePage ⟨List.replicate 22 0, [1, 1, 1], [10, 20, 30]⟩).drop 5]).1 =
      (streamPackets [(⟨List.replicate 22 0, [1, 1, 1], [10, 20, 30]⟩ : OggPage)]).drop 2 ∧
    (OggPageParser.process freshParser
      (encodeStream [(⟨List.replicate 22 0, [1, 1, 1], [10, 20, 30]⟩ : OggPage)])).1 =
      (streamPackets [(⟨List.replicate 22 0, [1, 1, 1], [10, 20, 30]⟩ : OggPage)]).drop 2 :=
  ogg_header_suppression_chunking
    [(⟨List.replicate 22 0, [1, 1, 1], [10, 20, 30]⟩ : OggPage)]
    [(encodePage ⟨List.replicate 22 0, [1, 1, 1], [10, 20, 30]⟩).take 5,
     (encodePage ⟨List.replicate 22 0, [1, 1, 1], [10, 20, 30]⟩).drop 5]
    (by decide) (by decide) (by decide) (by decide)

/-- Claim C2 (amended): a segment-table entry `< 255` that terminates an
EMPTY accumulated run is not counted: after any segment walk the packet
counter equals the old counter plus the number of non-empty completed
packets only, and the emitted list likewise contains only the non-empty
completed packets with index `≥ 2` over the parser lifetime. -/
theorem ogg_zero_length_not_counted (t b pp : List Nat) (sent : Nat)
    (acc : List (List Nat)) :
    (walkSegments t b pp sent acc).2.2 =
      sent + ((lacedPackets t b pp).1.filter (fun q => !q.isEmpty)).length ∧
    (walkSegments t b pp sent acc).1 =
      acc ++ ((lacedPackets t b pp).1.filter (fun q => !q.isEmpty)).drop (2 - sent) := by
  rw [walkSegments_spec]
  exact ⟨rfl, rfl⟩

/-- Claim C2 counterexample: the page with segment table `[0]` and empty
body terminates one (zero-length) packet, yet `packets_sent` stays 0
after processing it — the zero-length packet is not counted, contrary
to the claim. -/
theorem ogg_zero_length_cex :
    (lacedPackets [0] [] []).1.length = 1 ∧
    (OggPageParser.process freshParser
      (encodePage ⟨List.replicate 22 0, [0], []⟩)).2.packets_sent = 0 ∧
    (OggPageParser.process freshParser
      (encodePage ⟨List.replicate 22 0, [0], []⟩)).2.packets_sent ≠ 1 := by
  refine ⟨by decide, by decide, by decide⟩

/-- Claim C7: resynchronization.  (a) With ≥ 27 buffered bytes whose
first 4 are not the capture pattern and a byte 79 at some offset ≥ 1,
the loop discards everything before the first such byte and retries;
(b) with no such byte it keeps only the last 3 bytes and stops the
call; (c) consequently garbage containing no capture-pattern occurrence
followed by a well-formed page produces exactly the same result as the
page alone, and nothing stays buffered. -/
theorem ogg_resynchronization :
    (∀ (s : ParserState) (acc : List (List Nat)) (f i : Nat),
      27 ≤ s.buffer.length → s.buffer.take 4 ≠ oggSmagic → findO s.buffer = some i →
      (1 ≤ i ∧ s.buffer.getD i 0 = 79 ∧ ∀ j, 1 ≤ j → j < i → s.buffer.getD j 0 ≠ 79) ∧
      processLoop (f + 1) s acc =
        processLoop f ⟨s.buffer.drop i, s.pending_packet, s.packets_sent⟩ acc) ∧
    (∀ (s : ParserState) (acc : List (List Nat)) (f : Nat),
      27 ≤ s.buffer.length → s.buffer.take 4 ≠ oggSmagic → findO s.buffer = none →
      processLoop (f + 1) s acc =
        (acc, ⟨s.buffer.drop (s.buffer.length - 3), s.pending_packet, s.packets_sent⟩)) ∧
    (∀ (g : List Nat) (p : OggPage), WFPage p →
      (∀ i < g.length, ((g ++ encodePage p).drop i).take 4 ≠ oggSmagic) →
      OggPageParser.process freshParser (g ++ encodePage p) =
        OggPageParser.process freshParser (encodePage p) ∧
      (OggPageParser.process freshParser (g ++ encodePage p)).2.buffer = []) := by
  refine ⟨?_, ?_, ?_⟩
  · intro s acc f i h27 hmag hfind
    obtain ⟨h1, -, h3, h4⟩ := findO_spec _ _ hfind
    exact ⟨⟨h1, h3, h4⟩, processLoop_resync_step s acc f i h27 hmag hfind⟩
  · intro s acc f h27 hmag hfind
    exact processLoop_resync_none s acc f h27 hmag hfind
  · intro g p hp hg
    have hstream : encodeStream [p] ++ ([] : List Nat) = encodePage p := by
      simp [encodeStream]
    have hwf : ∀ q ∈ [p], WFPage q := by intro q hq; simp at hq; subst hq; exact hp
    have hlhs : OggPageParser.process freshParser (g ++ encodePage p) =
        ((walkPages [p] [] 0 []).1,
          ⟨[], (walkPages [p] [] 0 []).2.1, (walkPages [p] [] 0 []).2.2⟩) := by
      show processLoop _ ⟨[] ++ (g ++ encodePage p), [], 0⟩ [] = _
      rw [List.nil_append, ← hstream]
      apply processLoop_resync_consume g.length g (le_refl _) p [] [] [] 0 []
        _ hwf (Or.inl rfl)
      · intro i hi
        rw [hstream]
        exact hg i hi
      · rw [hstream]
        show (g ++ encodePage p).length <
          freshParser.buffer.length + (g ++ encodePage p).length + 1
        simp [freshParser]
    have hrhs : OggPageParser.process freshParser (encodePage p) =
        ((walkPages [p] [] 0 []).1,
          ⟨[], (walkPages [p] [] 0 []).2.1, (walkPages [p] [] 0 []).2.2⟩) := by
      show processLoop _ ⟨[] ++ encodePage p, [], 0⟩ [] = _
      rw [List.nil_append, ← hstream]
      apply processLoop_stream [p] [] [] 0 [] _ hwf (Or.inl rfl)
      rw [hstream]
      show (encodePage p).length < freshParser.buffer.length + (encodePage p).length + 1
      simp [freshParser]
    rw [hlhs, hrhs]
    exact ⟨rfl, rfl⟩

/-- Claim C7 witness: the three parts at concrete inputs — a buffer
`[1,2,3,79,…]` resynchronizing to offset 3; a buffer of thirty 5-bytes
keeping its last 3 bytes; garbage `[1,2,3]` before a 3-packet page
giving the same result as the page alone. -/
theorem ogg_resynchronization_witness :
    (processLoop 31 ⟨[1, 2, 3] ++ List.replicate 27 79, [], 0⟩ [] =
      processLoop 30 ⟨([1, 2, 3] ++ List.replicate 27 79).drop 3, [], 0⟩ []) ∧
    (processLoop 31 ⟨List.replicate 30 5, [], 0⟩ [] =
      ([], ⟨(List.replicate 30 5).drop 27, [], 0⟩)) ∧
    OggPageParser.process freshParser
        ([1, 2, 3] ++ encodePage ⟨List.replicate 22 0, [1, 1, 1], [10, 20, 30]⟩) =
      OggPageParser.process freshParser
        (encodePage ⟨List.replicate 22 0, [1, 1, 1], [10, 20, 30]⟩) := by
  refine ⟨?_, ?_, ?_⟩
  · exact (ogg_resynchronization.1 ⟨[1, 2, 3] ++ List.replicate 27 79, [], 0⟩ [] 30 3
      (by decide) (by decide) (by decide)).2
  · have h := ogg_resynchronization.2.1 ⟨List.replicate 30 5, [], 0⟩ [] 30
      (by decide) (by decide) (by decide)
    simpa using h
  · exact (ogg_resynchronization.2.2 [1, 2, 3]
      ⟨List.replicate 22 0, [1, 1, 1], [10, 20, 30]⟩ (by decide) (by decide)).1

/-- Claim C8: a single page whose segment table is a non-empty run of
255-entries followed by one terminal entry `< 255` reassembles exactly
one packet, equal to the whole page body, whose length is the sum
`255·k + term` of the run; it is emitted when the header-skip is past
(counter `≥ 2`) and the counter advances by exactly one. -/
theorem ogg_multisegment_reassembly (hdr b : List Nat) (k term sent : Nat)
    (h22 : hdr.length = 22) (hk : 1 ≤ k) (hterm : term < 255) (hkk : k + 1 ≤ 255)
    (hb : b.length = (List.replicate k 255 ++ [term]).sum) (hsent : 2 ≤ sent)
    (hbh : ∀ x ∈ hdr, x < 256) (hbb : ∀ x ∈ b, x < 256) :
    OggPageParser.process ⟨[], [], sent⟩
        (encodePage ⟨hdr, List.replicate k 255 ++ [term], b⟩) =
      ([b], ⟨[], [], sent + 1⟩) ∧ b.length = 255 * k + term := by
  have hsum : (List.replicate k 255 ++ [term]).sum = 255 * k + term := by
    simp [List.sum_append, List.sum_replicate, smul_eq_mul, Nat.mul_comm]
  have hwf : WFPage ⟨hdr, List.replicate k 255 ++ [term], b⟩ := by
    refine ⟨h22, hb, by simp; omega, hbh, ?_, hbb⟩
    intro x hx
    rcases List.mem_append.1 hx with h | h
    · rw [List.eq_of_mem_replicate h]; omega
    · simp at h; omega
  have hwfs : ∀ q ∈ [(⟨hdr, List.replicate k 255 ++ [term], b⟩ : OggPage)], WFPage q := by
    intro q hq; simp at hq; subst hq; exact hwf
  have hstream : encodeStream [(⟨hdr, List.replicate k 255 ++ [term], b⟩ : OggPage)] ++
      ([] : List Nat) = encodePage ⟨hdr, List.replicate k 255 ++ [term], b⟩ := by
    simp [encodeStream]
  have hproc : OggPageParser.process ⟨[], [], sent⟩
      (encodePage ⟨hdr, List.replicate k 255 ++ [term], b⟩) =
      ((walkPages [(⟨hdr, List.replicate k 255 ++ [term], b⟩ : OggPage)] [] sent []).1,
        ⟨[], (walkPages [(⟨hdr, List.replicate k 255 ++ [term], b⟩ : OggPage)] [] sent []).2.1,
          (walkPages [(⟨hdr, List.replicate k 255 ++ [term], b⟩ : OggPage)] [] sent []).2.2⟩) := by
    show processLoop _ ⟨[] ++ encodePage ⟨hdr, List.replicate k 255 ++ [term], b⟩, [], sent⟩ []
      = _
    rw [List.nil_append, ← hstream]
    apply processLoop_stream _ _ _ _ _ _ hwfs (Or.inl rfl)
    rw [hstream]
    simp
  have hlaced : lacedPackets (List.replicate k 255 ++ [term]) b [] = ([[] ++ b], []) :=
    lacedPackets_run k b [] term hterm hb
  have hbne : b ≠ [] := by
    intro h
    rw [h] at hb
    simp [hsum] at hb
    omega
  have hwalk : walkPages [(⟨hdr, List.replicate k 255 ++ [term], b⟩ : OggPage)] [] sent [] =
      ([b], [], sent + 1) := by
    show walkPages _ _ _ _ = _
    simp only [walkPages]
    rw [walkSegments_spec]
    dsimp only
    rw [hlaced]
    simp [List.filter_cons, List.isEmpty_iff, hbne, show 2 - sent = 0 by omega]
  rw [hproc, hwalk]
  refine ⟨rfl, by omega⟩

/-- Claim C8 witness: one 255-run segment plus terminator 1, a 256-byte
body of 7s, on a parser past its header skip. -/
theorem ogg_multisegment_reassembly_witness :
    OggPageParser.process ⟨[], [], 2⟩
        (encodePage ⟨List.replicate 22 0, List.replicate 1 255 ++ [1], List.replicate 256 7⟩) =
      ([List.replicate 256 7], ⟨[], [], 3⟩) ∧ (List.replicate 256 7).length = 255 * 1 + 1 :=
  ogg_multisegment_reassembly (List.replicate 22 0) (List.replicate 256 7) 1 1 2
    (by decide) (by decide) (by decide) (by decide) (by decide) (by decide)
    (by decide) (by decide)

/-- Claim C9: every byte string `process` ever returns, over any call
sequence from a fresh parser, is non-empty; a terminating entry `< 255`
met with an empty accumulated run is skipped silently, leaving counter
and pending state unchanged. -/
theorem ogg_output_packets_nonempty :
    (∀ (CS : List (List Nat)) (q : List Nat), q ∈ (feedAll freshParser CS).1 → q ≠ []) ∧
    (∀ (len : Nat) (rest body pp : List Nat) (sent : Nat) (acc : List (List Nat)),
      len < 255 → pp ++ body.take len = [] →
      walkSegments (len :: rest) body pp sent acc =
        walkSegments rest (body.drop len) pp sent acc) := by
  constructor
  · intro CS q hq
    exact feedAll_nonempty CS freshParser q hq
  · intro len rest body pp sent acc hlen hpp
    have hppnil : pp = [] := (List.append_eq_nil.1 hpp).1
    simp only [walkSegments, if_pos hlen, if_pos hpp]
    rw [hpp, hppnil]

/-- Claim C9 witness: the packet [30] returned for a concrete 3-packet
page is non-empty, and a zero-length termination on an empty run is a
no-op step of the segment walk. -/
theorem ogg_output_packets_nonempty_witness :
    ([30] : List Nat) ≠ [] ∧
    walkSegments [0, 1] [7] [] 5 [] = walkSegments [1] [7] [] 5 [] :=
  ⟨ogg_output_packets_nonempty.1
      [encodePage ⟨List.replicate 22 0, [1, 1, 1], [10, 20, 30]⟩] [30] (by decide),
    ogg_output_packets_nonempty.2 0 [1] [7] [] 5 [] (by decide) (by decide)⟩

/-! ### Helper lemmas for the bridge models -/

lemma connect_model_loop_spec (env : Nat → AttemptResult) :
    ∀ (remaining attempt : Nat),
    (connect_model_loop env remaining attempt).handshake_recv_waits = 0 ∧
    ((connect_model_loop env remaining attempt).success = true →
      (connect_model_loop env remaining attempt).config_msgs_sent = 1 ∧
      (connect_model_loop env remaining attempt).ws_connected = true) ∧
    ((connect_model_loop env remaining attempt).success = false →
      (connect_model_loop env remaining attempt).config_msgs_sent = 0 ∧
      (connect_model_loop env remaining attempt).ws_connected = false) := by
  intro remaining
  induction remaining with
  | zero =>
    intro attempt
    exact ⟨rfl, fun h => by simp [connect_model_loop] at h, fun _ => ⟨rfl, rfl⟩⟩
  | succ remaining ih =>
    intro attempt
    simp only [connect_model_loop]
    cases henv : env attempt with
    | sendOk => exact ⟨rfl, fun _ => ⟨rfl, rfl⟩, fun h => by simp at h⟩
    | connectFail => exact ih (attempt + 1)
    | sendFail => exact ih (attempt + 1)

lemma disconnect_model_fields (b : BridgeRes) :
    (disconnect_model b).model_ws_open = false ∧
    (disconnect_model b).is_running = b.is_running ∧
    (disconnect_model b).tasks = b.tasks := by
  unfold disconnect_model
  split
  · exact ⟨rfl, rfl, rfl⟩
  · rename_i h
    exact ⟨by simpa using h, rfl, rfl⟩

lemma cancel_and_await_ne_running (t : TaskPhase) :
    cancel_and_await t ≠ TaskPhase.running := by
  cases t <;> simp [cancel_and_await]

lemma handle_model_to_client_idle (hr : Bool) (tc : List Nat → List Nat) :
    ∀ m : Nat, handle_model_to_client hr tc (List.replicate m LoopEvent.noWs) =
      ⟨[], 0, 0⟩ := by
  intro m
  induction m with
  | zero => rfl
  | succ m ih => rw [List.replicate_succ]; simpa [handle_model_to_client] using ih

/-! ### Claim theorems for the bridge -/

/-- Claim C3 (amended): while `client_speaking` is true, no payload
received from the sidecar is ever forwarded to the client transport;
with a session recorder attached exactly one barge-in event is recorded
per dropped NON-empty payload, while empty payloads are skipped with no
event and with no recorder no event is recorded. -/
theorem barge_in_drop (tc : List Nat → List Nat) (es : List LoopEvent)
    (hsp : ∀ sp pcm, LoopEvent.recvMsg sp pcm ∈ es → sp = true) :
    ((handle_model_to_client true tc es).sent = [] ∧
      (handle_model_to_client true tc es).barge_ins =
        (es.filter isDroppedAudio).length) ∧
    (∀ (hr : Bool) (pcm : List Nat),
      (handle_model_msg true hr tc pcm).sent_to_client = none ∧
      (handle_model_msg true hr tc pcm).barge_ins =
        (if pcm ≠ [] ∧ hr = true then 1 else 0)) := by
  constructor
  · induction es with
    | nil => exact ⟨rfl, rfl⟩
    | cons e es ih =>
      have hrec : ∀ sp pcm, LoopEvent.recvMsg sp pcm ∈ es → sp = true := by
        intro sp pcm hm
        exact hsp sp pcm (by simp [hm])
      obtain ⟨ih1, ih2⟩ := ih hrec
      cases e with
      | noWs => simpa [handle_model_to_client, isDroppedAudio, List.filter_cons] using ⟨ih1, ih2⟩
      | recvTimeout =>
        simpa [handle_model_to_client, isDroppedAudio, List.filter_cons] using ⟨ih1, ih2⟩
      | recvMsg sp pcm =>
        have hspt : sp = true := hsp sp pcm (by simp)
        subst hspt
        by_cases hpcm : pcm = []
        · subst hpcm
          simp [handle_model_to_client, handle_model_msg, isDroppedAudio,
            List.filter_cons, ih1, ih2]
        · refine ⟨?_, ?_⟩ <;>
            simp [handle_model_to_client, handle_model_msg, isDroppedAudio,
              List.filter_cons, hpcm, ih1, ih2, List.isEmpty_iff] <;>
            omega
  · intro hr pcm
    by_cases hpcm : pcm = []
    · subst hpcm
      simp [handle_model_msg]
    · cases hr <;> simp [handle_model_msg, hpcm]

/-- Claim C3 counterexample: with the client speaking and a recorder
attached, an empty payload from the sidecar is dropped — never
forwarded — yet no barge-in event is recorded, so "exactly one barge-in
event per dropped payload" fails. -/
theorem barge_in_drop_cex :
    (handle_model_msg true true (fun x => x) []).sent_to_client = none ∧
    (handle_model_msg true true (fun x => x) []).barge_ins = 0 ∧
    (handle_model_msg true true (fun x => x) []).barge_ins ≠ 1 :=
  ⟨rfl, rfl, by decide⟩

/-- Claim C3 witness: a schedule of one empty and two non-empty payloads
received while the client speaks: nothing is forwarded and exactly two
barge-in events are recorded. -/
theorem barge_in_drop_witness :
    (handle_model_to_client true (fun x => x)
      [LoopEvent.recvMsg true [1, 2], LoopEvent.recvMsg true [],
        LoopEvent.recvMsg true [3]]).sent = [] ∧
    (handle_model_to_client true (fun x => x)
      [LoopEvent.recvMsg true [1, 2], LoopEvent.recvMsg true [],
        LoopEvent.recvMsg true [3]]).barge_ins = 2 :=
  by
    have hall : ∀ (sp : Bool) (pcm : List Nat),
        LoopEvent.recvMsg sp pcm ∈
          [LoopEvent.recvMsg true [1, 2], LoopEvent.recvMsg true [],
            LoopEvent.recvMsg true [3]] → sp = true := by
      intro sp pcm hm
      simp only [List.mem_cons, List.not_mem_nil, or_false] at hm
      rcases hm with h | h | h
      all_goals injection h with h1 h2
      all_goals exact h1
    exact ⟨((barge_in_drop (fun x => x)
        [LoopEvent.recvMsg true [1, 2], LoopEvent.recvMsg true [],
          LoopEvent.recvMsg true [3]] hall).1).1,
      ((barge_in_drop (fun x => x)
        [LoopEvent.recvMsg true [1, 2], LoopEvent.recvMsg true [],
          LoopEvent.recvMsg true [3]] hall).1).2⟩

/-- Claim C4 (amended): after a successful transport connect the client
itself sends exactly one JSON session-config message carrying the
session parameters (system prompt, voice id, language) and performs no
handshake receive at all — hence there is no handshake timeout and no
timeout-specific error; `connect_model` reports success as soon as the
send succeeds, and when all attempts fail it returns False with the
socket handle cleared. -/
theorem connect_no_handshake_wait (env : Nat → AttemptResult) (n : Nat) :
    (connect_model env n).handshake_recv_waits = 0 ∧
    ((connect_model env n).success = true →
      (connect_model env n).config_msgs_sent = 1 ∧
      (connect_model env n).ws_connected = true) ∧
    ((connect_model env n).success = false →
      (connect_model env n).config_msgs_sent = 0 ∧
      (connect_model env n).ws_connected = false) :=
  connect_model_loop_spec env n 1

/-- Claim C4 counterexample: with the transport connect succeeding, the
client sends one session-config handshake message of its own (the claim
says none) and blocks on zero handshake receives (the claim says one);
no timeout-specific connect error exists on this path. -/
theorem connect_no_handshake_wait_cex :
    (connect_model (fun _ => AttemptResult.sendOk) 3).success = true ∧
    (connect_model (fun _ => AttemptResult.sendOk) 3).config_msgs_sent = 1 ∧
    (connect_model (fun _ => AttemptResult.sendOk) 3).config_msgs_sent ≠ 0 ∧
    (connect_model (fun _ => AttemptResult.sendOk) 3).handshake_recv_waits = 0 ∧
    (connect_model (fun _ => AttemptResult.sendOk) 3).handshake_recv_waits ≠ 1 :=
  ⟨rfl, rfl, by decide, rfl, by decide⟩

/-- Claim C4 witness: the amended claim at a concrete failing
environment — no handshake receive, handle cleared on terminal
failure. -/
theorem connect_no_handshake_wait_witness :
    (connect_model (fun _ => AttemptResult.sendFail) 2).handshake_recv_waits = 0 ∧
    (connect_model (fun _ => AttemptResult.sendFail) 2).ws_connected = false :=
  ⟨(connect_no_handshake_wait (fun _ => AttemptResult.sendFail) 2).1,
    ((connect_no_handshake_wait (fun _ => AttemptResult.sendFail) 2).2.2 (by decide)).2⟩

/-- Claim C5 (amended): sidecar connect failure does not abort the
session: `process_stream` starts both streaming tasks regardless, sends
no structured error event and never closes the client transport — the
`except ConnectionError` handler that would do both is unreachable
because `connect_model` returns False rather than raising — and the
model socket simply stays disconnected. -/
theorem connect_failure_no_abort (env : Nat → AttemptResult) (n : Nat)
    (hfail : (connect_model env n).success = false) :
    (process_stream env n).tasks_started = 2 ∧
    (process_stream env n).error_events_to_client = 0 ∧
    (process_stream env n).client_closed_by_bridge = false ∧
    (process_stream env n).model_ws_open_at_end = false ∧
    (process_stream env n).connect_success = false :=
  ⟨rfl, rfl, rfl, rfl, hfail⟩

/-- Claim C5 counterexample: with every connection attempt failing,
the session is not aborted before any streaming task starts: both tasks
start, no error event reaches the client, and the bridge does not close
the client transport. -/
theorem connect_failure_no_abort_cex :
    (connect_model (fun _ => AttemptResult.connectFail) 3).success = false ∧
    (process_stream (fun _ => AttemptResult.connectFail) 3).tasks_started = 2 ∧
    (process_stream (fun _ => AttemptResult.connectFail) 3).tasks_started ≠ 0 ∧
    (process_stream (fun _ => AttemptResult.connectFail) 3).error_events_to_client = 0 ∧
    (process_stream (fun _ => AttemptResult.connectFail) 3).client_closed_by_bridge
      = false :=
  ⟨rfl, rfl, by decide, rfl, rfl⟩

/-- Claim C5 witness: the amended claim at the all-attempts-fail
environment. -/
theorem connect_failure_no_abort_witness :
    (process_stream (fun _ => AttemptResult.connectFail) 2).tasks_started = 2 ∧
    (process_stream (fun _ => AttemptResult.connectFail) 2).error_events_to_client = 0 :=
  ⟨(connect_failure_no_abort (fun _ => AttemptResult.connectFail) 2 (by decide)).1,
    (connect_failure_no_abort (fun _ => AttemptResult.connectFail) 2 (by decide)).2.1⟩

/-- Claim C6: when either of the two streaming tasks terminates first,
the supervisor cancels and awaits the remaining one and the model
socket is closed before `process_stream` returns; `stop()` likewise
leaves `is_running` false, every owned task non-running (cancelled or
already finished, its cancellation awaited), and the sidecar socket
closed.  The bridge owns no persistent transcoding process (per-chunk
transcoder subprocesses are awaited inside the transcode calls), so the
socket and the tasks are all the owned resources. -/
theorem first_completed_teardown (i : Fin 2) (ws : Bool) (b : BridgeRes) :
    ((supervisor_teardown i ws).is_running = false ∧
      (∀ t ∈ (supervisor_teardown i ws).tasks, t ≠ TaskPhase.running) ∧
      (supervisor_teardown i ws).model_ws_open = false ∧
      TaskPhase.completed ∈ (supervisor_teardown i ws).tasks) ∧
    ((stop b).is_running = false ∧
      (∀ t ∈ (stop b).tasks, t ≠ TaskPhase.running) ∧
      (stop b).model_ws_open = false) := by
  constructor
  · obtain ⟨d1, d2, d3⟩ := disconnect_model_fields
      (⟨false,
        ([if i = (0 : Fin 2) then TaskPhase.completed else TaskPhase.running,
          if i = (1 : Fin 2) then TaskPhase.completed else TaskPhase.running]).map
          cancel_and_await,
        ws⟩ : BridgeRes)
    refine ⟨by rw [supervisor_teardown, d2], ?_, by rw [supervisor_teardown, d1], ?_⟩
    · intro t ht
      rw [supervisor_teardown, d3] at ht
      obtain ⟨u, -, hu⟩ := List.mem_map.1 ht
      rw [← hu]
      exact cancel_and_await_ne_running u
    · rw [supervisor_teardown, d3]
      fin_cases i <;> simp [cancel_and_await]
  · obtain ⟨d1, d2, d3⟩ := disconnect_model_fields
      (⟨false, b.tasks.map cancel_and_await, b.model_ws_open⟩ : BridgeRes)
    refine ⟨by rw [stop, d2], ?_, by rw [stop, d1]⟩
    intro t ht
    rw [stop, d3] at ht
    obtain ⟨u, -, hu⟩ := List.mem_map.1 ht
    rw [← hu]
    exact cancel_and_await_ne_running u

/-- Claim C6 witness: the teardown applied with the first task finishing
and an open socket, and `stop` applied to a bridge with two running
tasks and an open socket. -/
theorem first_completed_teardown_witness :
    (supervisor_teardown 0 true).model_ws_open = false ∧
    (stop ⟨true, [TaskPhase.running, TaskPhase.running], true⟩).model_ws_open = false ∧
    TaskPhase.cancelled ≠ TaskPhase.running :=
  ⟨(first_completed_teardown 0 true
      ⟨true, [TaskPhase.running, TaskPhase.running], true⟩).1.2.2.1,
    (first_completed_teardown 0 true
      ⟨true, [TaskPhase.running, TaskPhase.running], true⟩).2.2.2,
    (first_completed_teardown 0 true
      ⟨true, [TaskPhase.running, TaskPhase.running], true⟩).2.2.1
      TaskPhase.cancelled (by decide)⟩

/-- Claim C10: `connect_model` never raises to its caller — it is a
total function into a Bool-carrying outcome — and on terminal failure
returns False with the socket handle cleared; `process_stream` then
still starts both streaming tasks, and with no model socket every
iteration of the model-to-client loop takes the idle branch, forwarding
nothing and recording nothing: the session continues in text-only
mode. -/
theorem connect_failure_text_only (env : Nat → AttemptResult) (n m : Nat)
    (hr : Bool) (tc : List Nat → List Nat) :
    ((connect_model env n).success = false → (connect_model env n).ws_connected = false) ∧
    (process_stream env n).tasks_started = 2 ∧
    handle_model_to_client hr tc (List.replicate m LoopEvent.noWs) = ⟨[], 0, 0⟩ :=
  ⟨fun h => ((connect_model_loop_spec env n 1).2.2 h).2, rfl,
    handle_model_to_client_idle hr tc m⟩

/-- Claim C10 witness: concrete failing environment, five idle loop
iterations. -/
theorem connect_failure_text_only_witness :
    (connect_model (fun _ => AttemptResult.connectFail) 4).ws_connected = false ∧
    (process_stream (fun _ => AttemptResult.connectFail) 4).tasks_started = 2 ∧
    handle_model_to_client true (fun x => x) (List.replicate 5 LoopEvent.noWs) =
      ⟨[], 0, 0⟩ :=
  ⟨(connect_failure_text_only (fun _ => AttemptResult.connectFail) 4 5 true
      (fun x => x)).1 (by decide),
    (connect_failure_text_only (fun _ => AttemptResult.connectFail) 4 5 true
      (fun x => x)).2.1,
    (connect_failure_text_only (fun _ => AttemptResult.connectFail) 4 5 true
      (fun x => x)).2.2⟩

end NexusAI
